import Mathlib

/-!
Verification of the fair weekly roster scheduler
(`generate_fair_roster` in `views/roster.py`).

The scheduler is embedded shallowly: every Python construct is translated
into an executable Lean definition.  Machine-level details that the claims
depend on are kept: the `counts` dictionary is an insertion-ordered
association list with last-write-wins semantics, list indexing is fallible
(`IndexError` is modelled as `Except.error .indexError`), and `divmod`
with a zero divisor is modelled as `Except.error .zeroDivisionError`.

The Python `random` module is a global deterministic generator: `seed(n)`
resets its state from `n` alone and `shuffle` performs an in-place
Fisher-Yates pass drawing from that state.  We model the generator state
explicitly (`RandState`), with a concrete linear-congruential step standing
in for the Mersenne-Twister step; the two properties of the generator the
scheduler relies on — the state after `seed(week_offset)` depends only on
`week_offset`, and `shuffle` permutes the list deterministically in the
state — are preserved exactly.  `generate_fair_roster` receives the ambient
generator state as an explicit argument so that independence from ambient
entropy is a provable statement rather than a modelling assumption.
-/

namespace RosterModel

open scoped List

/-- The canonical weekday labels, in source order (`days` in `roster.py`). -/
def days : List String :=
  ["Monday", "Tuesday", "Wednesday", "Thursday", "Friday", "Saturday", "Sunday"]

/-- A roster record `{"Day": d, "Person": p}` is modelled as the pair `(d, p)`. -/
abbrev Rec := String × String

/-- Errors the Python function can raise: `divmod(total, 0)` raises
`ZeroDivisionError`; `assignments[idx]` past the end raises `IndexError`. -/
inductive RosterError where
  | zeroDivisionError
  | indexError
deriving DecidableEq, Repr

/-- State of the `random` module generator (model of the Mersenne Twister). -/
structure RandState where
  val : Nat
deriving DecidableEq, Repr

/-- Model of `random.seed(seed)`: the resulting state is a function of the
seed alone. -/
def seedState (seed : Nat) : RandState :=
  ⟨(seed + 1) % 65537⟩

/-- One generator step (a small linear-congruential step standing in for the
Mersenne-Twister step; the scheduler relies only on the step being a
deterministic state transition). -/
def nextRand (s : RandState) : Nat × RandState :=
  let v := s.val * 75 % 65537
  (v, ⟨v⟩)

/-- Model of `random._randbelow(n)`: a draw reduced below `n`. -/
def randbelow (s : RandState) (n : Nat) : Nat × RandState :=
  let p := nextRand s
  (p.1 % n, p.2)

/-- Exchange the entries at positions `i` and `j` (the in-place swap
`x[i], x[j] = x[j], x[i]`); out-of-range positions leave the list unchanged. -/
def listSwap (l : List String) (i j : Nat) : List String :=
  match l.get? i, l.get? j with
  | some a, some b => (l.set i b).set j a
  | _, _ => l

/-- The Fisher-Yates pass of `random.shuffle`: for `i` from `len-1` down
to `1`, draw `j` below `i+1` and swap positions `i` and `j`.  The first
argument of the recursion is the current index written as `k+1`. -/
def shuffleFrom (s : RandState) (l : List String) : Nat → List String × RandState
  | 0 => (l, s)
  | k + 1 =>
    let p := randbelow s (k + 2)
    shuffleFrom p.2 (listSwap l (k + 1) p.1) k

/-- Model of `random.shuffle(x)`: returns the shuffled list and the
generator state after the draws. -/
def shuffle (s : RandState) (l : List String) : List String × RandState :=
  shuffleFrom s l (l.length - 1)

/-- `has_adjacent(lst)`: some entry equals its successor. -/
def has_adjacent : List String → Bool
  | a :: b :: rest => a == b || has_adjacent (b :: rest)
  | _ => false

/-- The re-shuffle loop
`while has_adjacent(assignments) and attempts < 1000: shuffle; attempts += 1`,
written with explicit fuel.  Called with `fuel = 1000` and `attempts = 0`
the fuel can only run out when `attempts` has reached `1000`, at which point
the guard is false anyway, so the fuel presentation is exact.
Returns the final list, the final generator state and the attempt count. -/
def retryLoopAux (s : RandState) (l : List String) (attempts : Nat) :
    Nat → List String × RandState × Nat
  | 0 => (l, s, attempts)
  | fuel + 1 =>
    if has_adjacent l ∧ attempts < 1000 then
      let p := shuffle s l
      retryLoopAux p.2 p.1 (attempts + 1) fuel
    else (l, s, attempts)

/-- The bounded adjacency-avoidance loop of `generate_fair_roster`. -/
def retryLoop (s : RandState) (l : List String) : List String × RandState × Nat :=
  retryLoopAux s l 0 1000

/-- Python dict assignment `m[k] = v`: overwrite in place if the key is
present (keeping its position), otherwise append the binding at the end. -/
def dictInsert (m : List (String × Nat)) (k : String) (v : Nat) : List (String × Nat) :=
  match m with
  | [] => [(k, v)]
  | (k', v') :: rest => if k' = k then (k, v) :: rest else (k', v') :: dictInsert rest k v

/-- The dict comprehension
`{name: base + (1 if idx < extra else 0) for idx, name in enumerate(order)}`,
as a left-to-right sequence of dict assignments starting at index `idx`. -/
def countsDictAux (base extra : Nat) :
    Nat → List String → List (String × Nat) → List (String × Nat)
  | _, [], m => m
  | idx, nm :: rest, m =>
    countsDictAux base extra (idx + 1) rest
      (dictInsert m nm (base + if idx < extra then 1 else 0))

/-- The `counts` dictionary of `generate_fair_roster`. -/
def countsDict (order : List String) (base extra : Nat) : List (String × Nat) :=
  countsDictAux base extra 0 order []

/-- `assign_days = [d for d in days if d not in skip_days]`. -/
def assignDays (skip_days : List String) : List String :=
  days.filter (fun d => decide (d ∉ skip_days))

/-- The roster returned by the `if not assign_days` branch: every day maps
to its entry in `skip_assignments` when present, else to "NO ASSIGNMENT". -/
def fullSkipRoster (skip_assignments : List (String × String)) : List Rec :=
  days.map (fun d => (d, ((skip_assignments.lookup d).getD "NO ASSIGNMENT")))

/-- `base` of `base, extra = divmod(total, n)`. -/
def baseOf (names : List String) (skip_days : List String) : Nat :=
  (assignDays skip_days).length / names.length

/-- `extra` of `base, extra = divmod(total, n)`. -/
def extraOf (names : List String) (skip_days : List String) : Nat :=
  (assignDays skip_days).length % names.length

/-- `order = [names[(week_offset + i) % n] for i in range(n)]`. -/
def orderOf (names : List String) (week_offset : Nat) : List String :=
  (List.range names.length).map
    (fun i => names.getD ((week_offset + i) % names.length) "")

/-- The `counts` dictionary for the given inputs. -/
def countsOf (names : List String) (week_offset : Nat) (skip_days : List String) :
    List (String × Nat) :=
  countsDict (orderOf names week_offset) (baseOf names skip_days) (extraOf names skip_days)

/-- The flat assignment list before shuffling:
`for name in order: assignments.extend([name] * counts[name])`. -/
def assignmentsOf (names : List String) (week_offset : Nat) (skip_days : List String) :
    List String :=
  (orderOf names week_offset).flatMap
    (fun nm => List.replicate (((countsOf names week_offset skip_days).lookup nm).getD 0) nm)

/-- The assignment list after the seeded shuffle and the bounded
adjacency-avoidance loop. -/
def finalAssignments (names : List String) (week_offset : Nat) (skip_days : List String) :
    List String :=
  let p := shuffle (seedState week_offset) (assignmentsOf names week_offset skip_days)
  (retryLoop p.2 p.1).1

/-- The day-emission loop (lines 68-78 of `roster.py`): walk the days,
emitting the special label when the day is a `skip_assignments` key, the
sentinel "DAY OFF" when it is a plain skip day, and otherwise the next
entry of the shuffled assignment list; `none` models the `IndexError`. -/
def emitDays (sd : List String) (sa : List (String × String)) (asg : List String) :
    List String → Nat → Option (List Rec)
  | [], _ => some []
  | d :: rest, idx =>
    match sa.lookup d with
    | some lbl => (emitDays sd sa asg rest idx).map (fun r => (d, lbl) :: r)
    | none =>
      if d ∈ sd then (emitDays sd sa asg rest idx).map (fun r => (d, "DAY OFF") :: r)
      else
        match asg.get? idx with
        | some p => (emitDays sd sa asg rest (idx + 1)).map (fun r => (d, p) :: r)
        | none => none

/-- `generate_fair_roster(names, week_offset, skip_days, skip_assignments)`.
The extra first argument is the ambient state of the global `random`
generator at call time; the function re-seeds before drawing, which is what
makes the result independent of it. -/
def generate_fair_roster (s : RandState) (names : List String) (week_offset : Nat)
    (skip_days : List String) (skip_assignments : List (String × String)) :
    Except RosterError (List Rec) :=
  if (assignDays skip_days).isEmpty then .ok (fullSkipRoster skip_assignments)
  else if names.length = 0 then .error .zeroDivisionError
  else
    match emitDays skip_days skip_assignments
        (finalAssignments names week_offset skip_days) days 0 with
    | some r => .ok r
    | none => .error .indexError

/-! ### The shuffle machinery only permutes the assignment list -/

/-- Pulling the entry at position `j` to the front while writing `x` at
position `j` permutes a cons onto the same tail. -/
theorem cons_set_perm (xs : List String) (j : Nat) (x b : String)
    (h : xs.get? j = some b) : b :: xs.set j x ~ x :: xs := by
  induction xs generalizing j with
  | nil => simp at h
  | cons c cs ih =>
    cases j with
    | zero =>
      simp only [List.get?] at h
      injection h with h
      subst h
      simpa using List.Perm.swap x c cs
    | succ j' =>
      simp only [List.get?] at h
      calc b :: (c :: cs).set (j' + 1) x = b :: c :: cs.set j' x := by simp
        _ ~ c :: b :: cs.set j' x := List.Perm.swap c b _
        _ ~ c :: x :: cs := (ih j' h).cons c
        _ ~ x :: c :: cs := List.Perm.swap x c cs

/-- A double `set` that exchanges two present entries is a permutation. -/
theorem set_set_swap_perm (l : List String) (i j : Nat) (a b : String)
    (hi : l.get? i = some a) (hj : l.get? j = some b) :
    (l.set i b).set j a ~ l := by
  induction l generalizing i j with
  | nil => simp at hi
  | cons c cs ih =>
    cases i with
    | zero =>
      simp only [List.get?] at hi
      injection hi with hi
      cases j with
      | zero =>
        simp only [List.get?] at hj
        injection hj with hj
        simp [← hi, ← hj]
      | succ j' =>
        simp only [List.get?] at hj
        subst hi
        simpa using cons_set_perm cs j' c b hj
    | succ i' =>
      simp only [List.get?] at hi
      cases j with
      | zero =>
        simp only [List.get?] at hj
        injection hj with hj
        subst hj
        simpa using cons_set_perm cs i' c a hi
      | succ j' =>
        simp only [List.get?] at hj
        simpa using (ih i' j' hi hj).cons c

/-- Swapping two positions permutes the list. -/
theorem listSwap_perm (l : List String) (i j : Nat) : listSwap l i j ~ l := by
  unfold listSwap
  split
  · next a b hi hj => exact set_set_swap_perm l i j a b hi hj
  · exact List.Perm.refl l

/-- Each Fisher-Yates pass permutes the list. -/
theorem shuffleFrom_perm (k : Nat) : ∀ s l, (shuffleFrom s l k).1 ~ l := by
  induction k with
  | zero => intro s l; exact List.Perm.refl l
  | succ k ih =>
    intro s l
    simp only [shuffleFrom]
    exact (ih _ _).trans (listSwap_perm l (k + 1) _)

/-- `random.shuffle` permutes the list. -/
theorem shuffle_perm (s : RandState) (l : List String) : (shuffle s l).1 ~ l :=
  shuffleFrom_perm _ s l

/-- The adjacency-avoidance loop permutes the list. -/
theorem retryLoopAux_perm (fuel : Nat) :
    ∀ s l a, (retryLoopAux s l a fuel).1 ~ l := by
  induction fuel with
  | zero => intro s l a; exact List.Perm.refl l
  | succ fuel ih =>
    intro s l a
    simp only [retryLoopAux]
    split
    · exact (ih _ _ _).trans (shuffle_perm s l)
    · exact List.Perm.refl l

/-- The attempt counter grows by at most the fuel. -/
theorem retryLoopAux_attempts (fuel : Nat) :
    ∀ s l a, (retryLoopAux s l a fuel).2.2 ≤ a + fuel := by
  induction fuel with
  | zero => intro s l a; exact Nat.le_refl a
  | succ fuel ih =>
    intro s l a
    simp only [retryLoopAux]
    split
    · exact (ih _ _ _).trans (by omega)
    · exact Nat.le_add_right a (fuel + 1)

theorem retryLoop_perm (s : RandState) (l : List String) : (retryLoop s l).1 ~ l :=
  retryLoopAux_perm 1000 s l 0

/-- The loop performs at most 1000 re-shuffles. -/
theorem retryLoop_attempts (s : RandState) (l : List String) :
    (retryLoop s l).2.2 ≤ 1000 :=
  retryLoopAux_attempts 1000 s l 0

/-- The final assignment list is a permutation of the prepared one. -/
theorem finalAssignments_perm (names : List String) (w : Nat) (sd : List String) :
    finalAssignments names w sd ~ assignmentsOf names w sd := by
  unfold finalAssignments
  exact (retryLoop_perm _ _).trans (shuffle_perm _ _)

/-! ### The counts dictionary and the prepared assignment list -/

/-- Association-list lookup through a cons, in `if` form. -/
theorem lookup_cons_if {α : Type} (a k : String) (b : α) (es : List (String × α)) :
    ((k, b) :: es).lookup a = if a = k then some b else es.lookup a := by
  rw [List.lookup_cons]
  by_cases h : a = k
  · have hb : (a == k) = true := by simp [h]
    simp [hb, h]
  · have hb : (a == k) = false := by simp [h]
    simp [hb, h]

theorem dictInsert_lookup_self (m : List (String × Nat)) (k : String) (v : Nat) :
    (dictInsert m k v).lookup k = some v := by
  induction m with
  | nil => simp [dictInsert]
  | cons p rest ih =>
    obtain ⟨k', v'⟩ := p
    by_cases h : k' = k
    · subst h; simp [dictInsert]
    · simp only [dictInsert, if_neg h]
      rw [lookup_cons_if, if_neg (Ne.symm h)]
      exact ih

theorem dictInsert_lookup_ne (m : List (String × Nat)) (k k' : String) (v : Nat)
    (h : k' ≠ k) : (dictInsert m k v).lookup k' = m.lookup k' := by
  induction m with
  | nil => simp [dictInsert, lookup_cons_if, if_neg h]
  | cons p rest ih =>
    obtain ⟨a, b⟩ := p
    by_cases ha : a = k
    · subst ha
      have hd : dictInsert ((a, b) :: rest) a v = (a, v) :: rest := by
        simp [dictInsert]
      rw [hd, lookup_cons_if, lookup_cons_if, if_neg h, if_neg h]
    · simp only [dictInsert, if_neg ha]
      by_cases hx : k' = a
      · subst hx
        rw [lookup_cons_if, lookup_cons_if, if_pos rfl, if_pos rfl]
      · rw [lookup_cons_if, lookup_cons_if, if_neg hx, if_neg hx]
        exact ih

theorem countsDictAux_lookup_not_mem (b e : Nat) (l : List String) (x : String)
    (hx : x ∉ l) : ∀ k m, (countsDictAux b e k l m).lookup x = m.lookup x := by
  induction l with
  | nil => intro k m; rfl
  | cons nm rest ih =>
    intro k m
    have hxr : x ∉ rest := fun h => hx (List.mem_cons_of_mem _ h)
    have hxn : x ≠ nm := fun h => hx (h ▸ List.mem_cons_self _ _)
    simp only [countsDictAux]
    rw [ih hxr, dictInsert_lookup_ne _ _ _ _ hxn]

theorem countsDictAux_lookup_nodup (b e : Nat) (l : List String) (hl : l.Nodup) :
    ∀ k m i, (hi : i < l.length) →
      (countsDictAux b e k l m).lookup l[i] = some (b + if k + i < e then 1 else 0) := by
  induction l with
  | nil => intro k m i hi; simp at hi
  | cons nm rest ih =>
    intro k m i hi
    rcases List.nodup_cons.mp hl with ⟨hnm, hrest⟩
    cases i with
    | zero =>
      simp only [List.getElem_cons_zero, countsDictAux]
      rw [countsDictAux_lookup_not_mem _ _ _ _ hnm, dictInsert_lookup_self]
      simp
    | succ i' =>
      simp only [List.getElem_cons_succ, countsDictAux]
      have := ih hrest (k + 1) (dictInsert m nm (b + if k < e then 1 else 0)) i'
        (by simpa using Nat.lt_of_succ_lt_succ hi)
      rw [this]
      have harith : k + 1 + i' = k + (i' + 1) := by omega
      rw [harith]

/-- With distinct names every entry of the rotated order gets its own count:
`base` plus one exactly when its index is below `extra`. -/
theorem countsDict_lookup (order : List String) (b e : Nat) (h : order.Nodup)
    (i : Nat) (hi : i < order.length) :
    (countsDict order b e).lookup order[i] = some (b + if i < e then 1 else 0) := by
  have := countsDictAux_lookup_nodup b e order h 0 [] i hi
  simpa using this

/-- When `extra = 0` every name, duplicated or not, is mapped to `base`. -/
theorem countsDict_lookup_zero (order : List String) (b : Nat) (x : String)
    (hx : x ∈ order) : (countsDict order b 0).lookup x = some b := by
  suffices h : ∀ (l : List String), x ∈ l → ∀ k m,
      (countsDictAux b 0 k l m).lookup x = some b by
    exact h order hx 0 []
  intro l
  induction l with
  | nil => intro h; simp at h
  | cons nm rest ih =>
    intro hmem k m
    simp only [countsDictAux, Nat.not_lt_zero, if_false, Nat.add_zero]
    by_cases hr : x ∈ rest
    · exact ih hr _ _
    · have hx : x = nm := by
        rcases List.mem_cons.mp hmem with h | h
        · exact h
        · exact absurd h hr
      subst hx
      rw [countsDictAux_lookup_not_mem _ _ _ _ hr, dictInsert_lookup_self]

/-! ### The rotated order -/

theorem orderOf_length (names : List String) (w : Nat) :
    (orderOf names w).length = names.length := by
  simp [orderOf]

/-- `order` is exactly the participant list rotated by `week_offset`. -/
theorem orderOf_eq_rotate (names : List String) (w : Nat) (h : names ≠ []) :
    orderOf names w = names.rotate w := by
  have hn : 0 < names.length := List.length_pos.mpr h
  apply List.ext_getElem
  · simp [orderOf, List.length_rotate]
  · intro i h1 h2
    rw [List.getElem_rotate]
    simp only [orderOf, List.getElem_map, List.getElem_range]
    rw [List.getD_eq_getElem _ _ (Nat.mod_lt _ hn)]
    congr 2
    omega

theorem orderOf_perm (names : List String) (w : Nat) (h : names ≠ []) :
    orderOf names w ~ names := by
  rw [orderOf_eq_rotate names w h]
  exact List.rotate_perm names w

theorem orderOf_nodup (names : List String) (w : Nat) (h : names ≠ [])
    (hn : names.Nodup) : (orderOf names w).Nodup :=
  ((orderOf_perm names w h).symm.nodup) hn

/-! ### The prepared assignment list -/

theorem count_flatMap_replicate (l : List String) (c : String → Nat) (x : String) :
    (l.flatMap fun nm => List.replicate (c nm) nm).count x = l.count x * c x := by
  induction l with
  | nil => simp
  | cons a rest ih =>
    simp only [List.flatMap_cons, List.count_append, ih, List.count_cons]
    by_cases h : a = x
    · subst h
      simp [List.count_replicate_self]
      ring
    · simp [List.count_replicate, h]

theorem length_flatMap_replicate (l : List String) (c : String → Nat) :
    (l.flatMap fun nm => List.replicate (c nm) nm).length = (l.map c).sum := by
  induction l with
  | nil => simp
  | cons a rest ih => simp [List.flatMap_cons, ih]

theorem sum_map_range_min (b e : Nat) :
    ∀ n, ((List.range n).map (fun i => b + if i < e then 1 else 0)).sum
      = n * b + min e n := by
  intro n
  induction n with
  | zero => simp
  | succ n ih =>
    rw [List.range_succ]
    simp only [List.map_append, List.sum_append, ih, List.map_cons, List.map_nil,
      List.sum_cons, List.sum_nil]
    rw [Nat.succ_mul]
    by_cases h : n < e
    · simp only [if_pos h]
      omega
    · simp only [if_neg h]
      omega

/-- With distinct names, the name at rotated index `i` occurs in the prepared
assignment list exactly `base` times, plus one exactly when `i < extra`. -/
theorem assignmentsOf_count (names : List String) (w : Nat) (sd : List String)
    (h : names ≠ []) (hn : names.Nodup) (i : Nat)
    (hi' : i < (orderOf names w).length) :
    (assignmentsOf names w sd).count (orderOf names w)[i] =
      baseOf names sd + if i < extraOf names sd then 1 else 0 := by
  have hnd := orderOf_nodup names w h hn
  unfold assignmentsOf
  rw [count_flatMap_replicate]
  rw [List.count_eq_one_of_mem hnd (List.getElem_mem hi'), one_mul]
  unfold countsOf
  rw [countsDict_lookup _ _ _ hnd i hi']
  rfl

/-- With distinct names the prepared assignment list has exactly one entry
per assignable day. -/
theorem assignmentsOf_length (names : List String) (w : Nat) (sd : List String)
    (h : names ≠ []) (hn : names.Nodup) :
    (assignmentsOf names w sd).length = (assignDays sd).length := by
  have hpos : 0 < names.length := List.length_pos.mpr h
  have hnd := orderOf_nodup names w h hn
  unfold assignmentsOf
  rw [length_flatMap_replicate]
  have hmap : (orderOf names w).map
      (fun nm => ((countsOf names w sd).lookup nm).getD 0) =
      (List.range names.length).map
        (fun i => baseOf names sd + if i < extraOf names sd then 1 else 0) := by
    apply List.ext_getElem
    · simp [orderOf_length]
    · intro i h1 h2
      simp only [List.getElem_map, List.getElem_range]
      have hi' : i < (orderOf names w).length := by
        simpa [orderOf_length] using h1
      unfold countsOf
      rw [countsDict_lookup _ _ _ hnd i hi']
      rfl
  rw [hmap, sum_map_range_min]
  have hlt : extraOf names sd < names.length := Nat.mod_lt _ hpos
  rw [Nat.min_eq_left (Nat.le_of_lt hlt)]
  unfold baseOf extraOf
  exact Nat.div_add_mod _ _

/-- The assignment list actually used for emission: same length. -/
theorem finalAssignments_length (names : List String) (w : Nat) (sd : List String)
    (h : names ≠ []) (hn : names.Nodup) :
    (finalAssignments names w sd).length = (assignDays sd).length := by
  rw [(finalAssignments_perm names w sd).length_eq]
  exact assignmentsOf_length names w sd h hn

/-- The assignment list actually used for emission: same counts. -/
theorem finalAssignments_count (names : List String) (w : Nat) (sd : List String)
    (x : String) :
    (finalAssignments names w sd).count x = (assignmentsOf names w sd).count x :=
  (finalAssignments_perm names w sd).count_eq x

/-! ### The day-emission loop -/

/-- The value of the emission loop when no `IndexError` occurs (proved equal
to `emitDays` whenever the assignment list is long enough). -/
def emitPure (sd : List String) (sa : List (String × String)) (asg : List String) :
    List String → Nat → List Rec
  | [], _ => []
  | d :: rest, idx =>
    match sa.lookup d with
    | some lbl => (d, lbl) :: emitPure sd sa asg rest idx
    | none =>
      if d ∈ sd then (d, "DAY OFF") :: emitPure sd sa asg rest idx
      else (d, (asg.get? idx).getD "") :: emitPure sd sa asg rest (idx + 1)

/-- The days that consume an entry of the assignment list: neither a
`skip_assignments` key nor a member of `skip_days`. -/
def consumingDays (sd : List String) (sa : List (String × String))
    (ds : List String) : List String :=
  ds.filter (fun d => (sa.lookup d).isNone && decide (d ∉ sd))

theorem emitDays_eq_emitPure (sd : List String) (sa : List (String × String))
    (asg : List String) : ∀ ds idx,
    idx + (consumingDays sd sa ds).length ≤ asg.length →
    emitDays sd sa asg ds idx = some (emitPure sd sa asg ds idx) := by
  intro ds
  induction ds with
  | nil => intro idx _; rfl
  | cons d rest ih =>
    intro idx hlen
    cases hl : sa.lookup d with
    | some lbl =>
      have hc : consumingDays sd sa (d :: rest) = consumingDays sd sa rest := by
        simp [consumingDays, List.filter_cons, hl]
      rw [hc] at hlen
      simp only [emitDays, emitPure, hl, ih idx hlen, Option.map_some', Option.getD_some]
    | none =>
      by_cases hd : d ∈ sd
      · have hc : consumingDays sd sa (d :: rest) = consumingDays sd sa rest := by
          simp [consumingDays, List.filter_cons, hl, hd]
        rw [hc] at hlen
        simp only [emitDays, emitPure, hl, if_pos hd, ih idx hlen, Option.map_some', Option.getD_some]
      · have hc : consumingDays sd sa (d :: rest) = d :: consumingDays sd sa rest := by
          simp [consumingDays, List.filter_cons, hl, hd]
        rw [hc] at hlen
        simp only [List.length_cons] at hlen
        have hidx : idx < asg.length := by omega
        have hrec : idx + 1 + (consumingDays sd sa rest).length ≤ asg.length := by omega
        simp only [emitDays, emitPure, hl, if_neg hd, List.get?_eq_getElem?,
          List.getElem?_eq_getElem hidx, ih (idx + 1) hrec, Option.map_some', Option.getD_some]

theorem emitDays_eq_none (sd : List String) (sa : List (String × String))
    (asg : List String) : ∀ ds idx, idx ≤ asg.length →
    asg.length < idx + (consumingDays sd sa ds).length →
    emitDays sd sa asg ds idx = none := by
  intro ds
  induction ds with
  | nil =>
    intro idx hle hlt
    simp [consumingDays] at hlt
    omega
  | cons d rest ih =>
    intro idx hle hlt
    cases hl : sa.lookup d with
    | some lbl =>
      have hc : consumingDays sd sa (d :: rest) = consumingDays sd sa rest := by
        simp [consumingDays, List.filter_cons, hl]
      rw [hc] at hlt
      simp only [emitDays, hl, ih idx hle hlt, Option.map_none']
    | none =>
      by_cases hd : d ∈ sd
      · have hc : consumingDays sd sa (d :: rest) = consumingDays sd sa rest := by
          simp [consumingDays, List.filter_cons, hl, hd]
        rw [hc] at hlt
        simp only [emitDays, hl, if_pos hd, ih idx hle hlt, Option.map_none']
      · have hc : consumingDays sd sa (d :: rest) = d :: consumingDays sd sa rest := by
          simp [consumingDays, List.filter_cons, hl, hd]
        rw [hc] at hlt
        simp only [List.length_cons] at hlt
        by_cases hidx : idx < asg.length
        · have hrec : asg.length < idx + 1 + (consumingDays sd sa rest).length := by omega
          simp only [emitDays, hl, if_neg hd, List.get?_eq_getElem?,
            List.getElem?_eq_getElem hidx, ih (idx + 1) hidx hrec, Option.map_none']
        · have hnone : asg.get? idx = none := by
            rw [List.get?_eq_getElem?]
            exact List.getElem?_eq_none (by omega)
          simp only [emitDays, hl, if_neg hd, hnone]

theorem emitPure_map_fst (sd : List String) (sa : List (String × String))
    (asg : List String) : ∀ ds idx,
    (emitPure sd sa asg ds idx).map Prod.fst = ds := by
  intro ds
  induction ds with
  | nil => intro idx; rfl
  | cons d rest ih =>
    intro idx
    cases hl : sa.lookup d with
    | some lbl => simp [emitPure, hl, ih]
    | none =>
      by_cases hd : d ∈ sd
      · simp [emitPure, hl, if_pos hd, ih]
      · simp [emitPure, hl, if_neg hd, ih]

/-- Every emitted record is a configured label, the skip sentinel on a skip
day, or a rotation entry on a day that is neither labelled nor skipped. -/
theorem emitPure_mem_cases (sd : List String) (sa : List (String × String))
    (asg : List String) : ∀ ds idx dp, dp ∈ emitPure sd sa asg ds idx →
    sa.lookup dp.1 = some dp.2 ∨
      (sa.lookup dp.1 = none ∧ dp.1 ∈ sd ∧ dp.2 = "DAY OFF") ∨
      (sa.lookup dp.1 = none ∧ dp.1 ∉ sd) := by
  intro ds
  induction ds with
  | nil => intro idx dp h; simp [emitPure] at h
  | cons d rest ih =>
    intro idx dp hmem
    cases hl : sa.lookup d with
    | some lbl =>
      rw [emitPure, hl] at hmem
      rcases List.mem_cons.mp hmem with h | h
      · subst h; exact Or.inl hl
      · exact ih idx dp h
    | none =>
      by_cases hd : d ∈ sd
      · rw [emitPure, hl, if_pos hd] at hmem
        rcases List.mem_cons.mp hmem with h | h
        · subst h; exact Or.inr (Or.inl ⟨hl, hd, rfl⟩)
        · exact ih idx dp h
      · rw [emitPure, hl, if_neg hd] at hmem
        rcases List.mem_cons.mp hmem with h | h
        · subst h; exact Or.inr (Or.inr ⟨hl, hd⟩)
        · exact ih (idx + 1) dp h

/-- When the assignment list is long enough, every record on a consuming day
carries an entry of the assignment list. -/
theorem emitPure_mem_consume (sd : List String) (sa : List (String × String))
    (asg : List String) : ∀ ds idx dp,
    idx + (consumingDays sd sa ds).length ≤ asg.length →
    dp ∈ emitPure sd sa asg ds idx → sa.lookup dp.1 = none → dp.1 ∉ sd →
    dp.2 ∈ asg := by
  intro ds
  induction ds with
  | nil => intro idx dp _ h; simp [emitPure] at h
  | cons d rest ih =>
    intro idx dp hlen hmem hlook hnsd
    cases hl : sa.lookup d with
    | some lbl =>
      have hc : consumingDays sd sa (d :: rest) = consumingDays sd sa rest := by
        simp [consumingDays, List.filter_cons, hl]
      rw [hc] at hlen
      rw [emitPure, hl] at hmem
      rcases List.mem_cons.mp hmem with h | h
      · subst h; rw [hlook] at hl; cases hl
      · exact ih idx dp hlen h hlook hnsd
    | none =>
      by_cases hd : d ∈ sd
      · have hc : consumingDays sd sa (d :: rest) = consumingDays sd sa rest := by
          simp [consumingDays, List.filter_cons, hl, hd]
        rw [hc] at hlen
        rw [emitPure, hl, if_pos hd] at hmem
        rcases List.mem_cons.mp hmem with h | h
        · subst h; exact absurd hd hnsd
        · exact ih idx dp hlen h hlook hnsd
      · have hc : consumingDays sd sa (d :: rest) = d :: consumingDays sd sa rest := by
          simp [consumingDays, List.filter_cons, hl, hd]
        rw [hc] at hlen
        simp only [List.length_cons] at hlen
        have hidx : idx < asg.length := by omega
        rw [emitPure, hl, if_neg hd] at hmem
        rcases List.mem_cons.mp hmem with h | h
        · have : dp.2 = asg[idx] := by
            rw [h]
            simp [List.get?_eq_getElem?, List.getElem?_eq_getElem hidx]
          rw [this]
          exact List.getElem_mem hidx
        · exact ih (idx + 1) dp (by omega) h hlook hnsd

/-- A labelled day always appears with its configured label. -/
theorem emitPure_mem_label (sd : List String) (sa : List (String × String))
    (asg : List String) : ∀ ds idx d lbl, d ∈ ds → sa.lookup d = some lbl →
    (d, lbl) ∈ emitPure sd sa asg ds idx := by
  intro ds
  induction ds with
  | nil => intro idx d lbl h; simp at h
  | cons a rest ih =>
    intro idx d lbl hmem hlook
    rcases List.mem_cons.mp hmem with h | h
    · subst h
      rw [emitPure, hlook]
      exact List.mem_cons_self _ _
    · cases hl : sa.lookup a with
      | some lbl2 =>
        rw [emitPure, hl]
        exact List.mem_cons_of_mem _ (ih idx d lbl h hlook)
      | none =>
        by_cases ha : a ∈ sd
        · rw [emitPure, hl, if_pos ha]
          exact List.mem_cons_of_mem _ (ih idx d lbl h hlook)
        · rw [emitPure, hl, if_neg ha]
          exact List.mem_cons_of_mem _ (ih (idx + 1) d lbl h hlook)

/-- An unlabelled skip day always appears with the sentinel "DAY OFF". -/
theorem emitPure_mem_dayoff (sd : List String) (sa : List (String × String))
    (asg : List String) : ∀ ds idx d, d ∈ ds → sa.lookup d = none → d ∈ sd →
    (d, "DAY OFF") ∈ emitPure sd sa asg ds idx := by
  intro ds
  induction ds with
  | nil => intro idx d h; simp at h
  | cons a rest ih =>
    intro idx d hmem hlook hsd
    rcases List.mem_cons.mp hmem with h | h
    · subst h
      rw [emitPure, hlook, if_pos hsd]
      exact List.mem_cons_self _ _
    · cases hl : sa.lookup a with
      | some lbl2 =>
        rw [emitPure, hl]
        exact List.mem_cons_of_mem _ (ih idx d h hlook hsd)
      | none =>
        by_cases ha : a ∈ sd
        · rw [emitPure, hl, if_pos ha]
          exact List.mem_cons_of_mem _ (ih idx d h hlook hsd)
        · rw [emitPure, hl, if_neg ha]
          exact List.mem_cons_of_mem _ (ih (idx + 1) d h hlook hsd)

/-- When every labelled day is a skip day, the persons of the non-skip
records are exactly the consumed slice of the assignment list, in order. -/
theorem emitPure_filter_persons (sd : List String) (sa : List (String × String))
    (asg : List String) (hsa : ∀ d, (sa.lookup d).isSome → d ∈ sd) :
    ∀ ds idx, idx + (consumingDays sd sa ds).length ≤ asg.length →
    ((emitPure sd sa asg ds idx).filter (fun p => decide (p.1 ∉ sd))).map Prod.snd
      = (asg.drop idx).take (consumingDays sd sa ds).length := by
  intro ds
  induction ds with
  | nil => intro idx _; simp [emitPure, consumingDays]
  | cons d rest ih =>
    intro idx hlen
    cases hl : sa.lookup d with
    | some lbl =>
      have hd : d ∈ sd := hsa d (by simp [hl])
      have hc : consumingDays sd sa (d :: rest) = consumingDays sd sa rest := by
        simp [consumingDays, List.filter_cons, hl]
      rw [hc] at hlen ⊢
      rw [emitPure, hl, List.filter_cons]
      simp only [hd, not_true_eq_false, decide_False, if_false]
      exact ih idx hlen
    | none =>
      by_cases hd : d ∈ sd
      · have hc : consumingDays sd sa (d :: rest) = consumingDays sd sa rest := by
          simp [consumingDays, List.filter_cons, hl, hd]
        rw [hc] at hlen ⊢
        rw [emitPure, hl, if_pos hd, List.filter_cons]
        simp only [hd, not_true_eq_false, decide_False, if_false]
        exact ih idx hlen
      · have hc : consumingDays sd sa (d :: rest) = d :: consumingDays sd sa rest := by
          simp [consumingDays, List.filter_cons, hl, hd]
        rw [hc] at hlen ⊢
        simp only [List.length_cons] at hlen ⊢
        have hidx : idx < asg.length := by omega
        rw [emitPure, hl, if_neg hd, List.filter_cons]
        simp only [hd, not_false_eq_true, decide_True, if_true, List.map_cons]
        rw [ih (idx + 1) (by omega)]
        rw [List.drop_eq_getElem_cons hidx, List.take_succ_cons]
        congr 1
        simp [List.get?_eq_getElem?, List.getElem?_eq_getElem hidx]

/-! ### Comparing filter lengths -/

theorem length_filter_le_of_imp (l : List String) (p q : String → Bool)
    (h : ∀ a, p a = true → q a = true) :
    (l.filter p).length ≤ (l.filter q).length := by
  induction l with
  | nil => exact Nat.le_refl 0
  | cons a rest ih =>
    rw [List.filter_cons, List.filter_cons]
    cases hp : p a
    · cases hq : q a
      · simpa [hp, hq] using ih
      · simp [hp, hq]
        omega
    · have hq := h a hp
      simp [hp, hq]
      omega

theorem length_filter_lt_of_mem (l : List String) (p q : String → Bool)
    (h : ∀ a, p a = true → q a = true) (d : String) (hd : d ∈ l)
    (hp : p d = false) (hq : q d = true) :
    (l.filter p).length < (l.filter q).length := by
  induction l with
  | nil => simp at hd
  | cons a rest ih =>
    rw [List.filter_cons, List.filter_cons]
    by_cases had : a = d
    · subst had
      simp [hp, hq]
      have := length_filter_le_of_imp rest p q h
      omega
    · have hdr : d ∈ rest := by
        rcases List.mem_cons.mp hd with h' | h'
        · exact absurd h'.symm had
        · exact h'
      cases hpa : p a
      · cases hqa : q a
        · simpa [hpa, hqa] using ih hdr
        · simp [hpa, hqa]
          have := ih hdr
          omega
      · have hqa := h a hpa
        simp [hpa, hqa]
        have := ih hdr
        omega

/-- At most one assignment entry is consumed per assignable day. -/
theorem consumingDays_sub (sd : List String) (sa : List (String × String)) :
    (consumingDays sd sa days).length ≤ (assignDays sd).length := by
  unfold consumingDays assignDays
  exact length_filter_le_of_imp days _ _
    (fun a ha => (Bool.and_eq_true _ _ |>.mp ha).2)

/-- When every `skip_assignments` key is a skip day, the consuming days are
exactly the assignable days. -/
theorem consumingDays_eq_assignDays (sd : List String) (sa : List (String × String))
    (hsa : ∀ d, (sa.lookup d).isSome → d ∈ sd) :
    consumingDays sd sa days = assignDays sd := by
  unfold consumingDays assignDays
  apply List.filter_congr
  intro a _
  by_cases hm : a ∈ sd
  · simp [hm]
  · have : (sa.lookup a).isNone = true := by
      cases hl : sa.lookup a with
      | none => rfl
      | some lbl => exact absurd (hsa a (by simp [hl])) hm
    simp [hm, this]

/-! ### Main success lemmas -/

/-- Core success lemma: whenever the prepared assignment list covers the
assignable days, the function succeeds and returns the emission of the
final assignment list. -/
theorem generate_ok_of_length (s : RandState) (names : List String) (w : Nat)
    (sd : List String) (sa : List (String × String))
    (h : names ≠ []) (ha : assignDays sd ≠ [])
    (hfit : (assignmentsOf names w sd).length = (assignDays sd).length) :
    generate_fair_roster s names w sd sa =
      .ok (emitPure sd sa (finalAssignments names w sd) days 0) := by
  have hlen0 : ¬ names.length = 0 := by
    simpa [List.length_eq_zero] using h
  have hcond : 0 + (consumingDays sd sa days).length
      ≤ (finalAssignments names w sd).length := by
    rw [Nat.zero_add, (finalAssignments_perm names w sd).length_eq, hfit]
    exact consumingDays_sub sd sa
  unfold generate_fair_roster
  rw [if_neg (by simpa using ha), if_neg hlen0,
    emitDays_eq_emitPure sd sa _ days 0 hcond]

/-- With a non-empty duplicate-free participant list and at least one
assignable day, the function succeeds. -/
theorem generate_ok (s : RandState) (names : List String) (w : Nat)
    (sd : List String) (sa : List (String × String))
    (h : names ≠ []) (hn : names.Nodup) (ha : assignDays sd ≠ []) :
    generate_fair_roster s names w sd sa =
      .ok (emitPure sd sa (finalAssignments names w sd) days 0) :=
  generate_ok_of_length s names w sd sa h ha
    (assignmentsOf_length names w sd h hn)

theorem sum_map_const (l : List String) (b : Nat) :
    (l.map (fun _ => b)).sum = l.length * b := by
  induction l with
  | nil => simp
  | cons a rest ih =>
    simp only [List.map_cons, List.sum_cons, ih, List.length_cons]
    rw [Nat.succ_mul]
    omega

/-- When `extra = 0` the prepared assignment list covers the assignable days
even if names repeat: every name is mapped to `base` and the duplicates'
contributions add up to `n * base = total`. -/
theorem assignmentsOf_length_zero (names : List String) (w : Nat)
    (sd : List String) (h : names ≠ []) (hz : extraOf names sd = 0) :
    (assignmentsOf names w sd).length = (assignDays sd).length := by
  unfold assignmentsOf
  rw [length_flatMap_replicate]
  have hmap : (orderOf names w).map
      (fun nm => ((countsOf names w sd).lookup nm).getD 0) =
      (orderOf names w).map (fun _ => baseOf names sd) := by
    apply List.map_congr_left
    intro nm hm
    unfold countsOf
    rw [hz, countsDict_lookup_zero _ _ _ hm]
    rfl
  rw [hmap, sum_map_const, orderOf_length]
  have := Nat.div_add_mod (assignDays sd).length names.length
  unfold baseOf
  unfold extraOf at hz
  omega

/-- The rotated order of a singleton list is that singleton. -/
theorem orderOf_singleton (a : String) (w : Nat) : orderOf [a] w = [a] := by
  simp [orderOf, Nat.mod_one]

/-! ### Derived quantities named by the specification -/

/-- The number of non-skip-day records of roster `r` carrying person `x`
("days assigned to `x`, restricted to non-skip days"). -/
def countAssigned (sd : List String) (r : List Rec) (x : String) : Nat :=
  ((r.filter (fun p => decide (p.1 ∉ sd))).map Prod.snd).count x

/-- The rotated positions that receive the extra day for a given
`week_offset`: indices `(week_offset + i) % n` for `i < extra`. -/
def extraIndices (names sd : List String) (w : Nat) : List Nat :=
  (List.range (extraOf names sd)).map (fun i => (w + i) % names.length)

/-- The participants receiving the extra day for a given `week_offset`. -/
def extraReceivers (names sd : List String) (w : Nat) : List String :=
  (extraIndices names sd w).map (fun j => names.getD j "")

/-- `countAssigned` over a successful emission equals the count in the
final assignment list, whenever the labelled days are all skip days. -/
theorem countAssigned_emitPure (names : List String) (w : Nat)
    (sd : List String) (sa : List (String × String))
    (h : names ≠ []) (hsa : ∀ d, (sa.lookup d).isSome → d ∈ sd)
    (hfit : (assignmentsOf names w sd).length = (assignDays sd).length)
    (x : String) :
    countAssigned sd (emitPure sd sa (finalAssignments names w sd) days 0) x =
      (assignmentsOf names w sd).count x := by
  have hflen : (finalAssignments names w sd).length = (assignDays sd).length := by
    rw [(finalAssignments_perm names w sd).length_eq, hfit]
  have hcond : 0 + (consumingDays sd sa days).length
      ≤ (finalAssignments names w sd).length := by
    rw [Nat.zero_add, hflen]
    exact consumingDays_sub sd sa
  unfold countAssigned
  rw [emitPure_filter_persons sd sa _ hsa days 0 hcond, List.drop_zero]
  rw [consumingDays_eq_assignDays sd sa hsa, ← hflen, List.take_length]
  exact finalAssignments_count names w sd x

/-! ### Helpers shared by several claims -/

/-- The full-skip branch of the function. -/
theorem generate_full_skip (s : RandState) (names : List String) (w : Nat)
    (sd : List String) (sa : List (String × String))
    (hempty : assignDays sd = []) :
    generate_fair_roster s names w sd sa = .ok (fullSkipRoster sa) := by
  unfold generate_fair_roster
  rw [if_pos (by simpa using hempty)]

theorem assignDays_eq_nil_of_all (sd : List String) (hall : ∀ d ∈ days, d ∈ sd) :
    assignDays sd = [] := by
  unfold assignDays
  rw [List.filter_eq_nil_iff]
  intro a ha
  simp [hall a ha]

theorem fullSkipRoster_map_fst (sa : List (String × String)) :
    (fullSkipRoster sa).map Prod.fst = days := by
  unfold fullSkipRoster
  rw [List.map_map]
  have hcomp : (Prod.fst ∘ fun d => (d, (List.lookup d sa).getD "NO ASSIGNMENT")) =
      fun d : String => d := rfl
  rw [hcomp]
  simp

theorem fullSkipRoster_mem (sa : List (String × String)) (d : String)
    (hd : d ∈ days) : (d, (sa.lookup d).getD "NO ASSIGNMENT") ∈ fullSkipRoster sa :=
  List.mem_map_of_mem _ hd

theorem fullSkipRoster_mem_cases (sa : List (String × String)) (dp : Rec)
    (h : dp ∈ fullSkipRoster sa) :
    sa.lookup dp.1 = some dp.2 ∨ (sa.lookup dp.1 = none ∧ dp.2 = "NO ASSIGNMENT") := by
  rcases List.mem_map.mp h with ⟨d, _, hdp⟩
  subst hdp
  cases hl : sa.lookup d with
  | some lbl => exact Or.inl (by simp [hl])
  | none => exact Or.inr (by simp [hl])

theorem emitPure_length (sd : List String) (sa : List (String × String))
    (asg : List String) (ds : List String) (idx : Nat) :
    (emitPure sd sa asg ds idx).length = ds.length := by
  have h := congrArg List.length (emitPure_map_fst sd sa asg ds idx)
  simpa using h

/-! ### Claim C1 -/

/-- C1 is false as stated: with an empty participant list but all seven days
skipped, `generate_fair_roster` does not fail at all — it returns the
7-record full-skip roster. -/
theorem c1_counterexample :
    ∃ r, generate_fair_roster ⟨0⟩ [] 5 days [("Saturday", "GENERAL CLEANING")] = .ok r ∧
      r.length = 7 :=
  ⟨fullSkipRoster [("Saturday", "GENERAL CLEANING")], rfl, rfl⟩

/-- C1 (amended): there is no `InvalidInputError` check.  An empty
participant list makes the call fail only when at least one day is
assignable, and then with the `ZeroDivisionError` of `divmod(total, 0)`;
no roster is produced on that path. -/
theorem c1_empty_zero_division (s : RandState) (w : Nat) (sd : List String)
    (sa : List (String × String)) (ha : assignDays sd ≠ []) :
    generate_fair_roster s [] w sd sa = .error .zeroDivisionError := by
  unfold generate_fair_roster
  rw [if_neg (by simpa using ha)]
  rfl

/-- Witness for C1's amended theorem at a concrete input. -/
theorem c1_witness :
    assignDays [] ≠ [] ∧
      generate_fair_roster ⟨7⟩ [] 3 [] [] = .error .zeroDivisionError :=
  ⟨by decide, c1_empty_zero_division ⟨7⟩ 3 [] [] (by decide)⟩

/-! ### Claim C2 -/

/-- C2 is false as stated: with the duplicate list `["A", "A"]` and no skip
days the `counts` dictionary collapses the two occurrences (7 assignable
days give the single key "A" first the value 4, then the overwrite 3), so
the flat assignment list has only 6 entries and the day-emission loop
indexes out of bounds: the call raises `IndexError` instead of returning a
7-record roster. -/
theorem c2_counterexample :
    generate_fair_roster ⟨0⟩ ["A", "A"] 0 [] [] = .error .indexError := by
  have hlen : (finalAssignments ["A", "A"] 0 []).length = 6 := by
    rw [(finalAssignments_perm _ _ _).length_eq]
    rfl
  have hnone : emitDays [] [] (finalAssignments ["A", "A"] 0 []) days 0 = none := by
    apply emitDays_eq_none
    · omega
    · have hc : (consumingDays [] [] days).length = 7 := rfl
      omega
  unfold generate_fair_roster
  rw [if_neg (by decide), if_neg (by decide), hnone]

/-- C2 (amended): duplicate names are safe exactly when they cannot straddle
the `extra` boundary; in particular whenever the participant count divides
the number of assignable days (`extra = 0`), the call returns a well-formed
7-record roster even with repeated names, because every occurrence
contributes the same `base` count. -/
theorem c2_duplicates_ok (s : RandState) (names : List String) (w : Nat)
    (sd : List String) (sa : List (String × String))
    (h : names ≠ []) (ha : assignDays sd ≠ []) (hz : extraOf names sd = 0) :
    ∃ r, generate_fair_roster s names w sd sa = .ok r ∧ r.length = 7 ∧
      r.map Prod.fst = days := by
  refine ⟨_, generate_ok_of_length s names w sd sa h ha
    (assignmentsOf_length_zero names w sd h hz), ?_, ?_⟩
  · rw [emitPure_length]
    rfl
  · exact emitPure_map_fst sd sa _ days 0

/-- Witness for C2's amended theorem: `["A", "A"]` with Sunday skipped
(6 assignable days, `extra = 0`). -/
theorem c2_witness :
    (["A", "A"] : List String) ≠ [] ∧ assignDays ["Sunday"] ≠ [] ∧
      extraOf ["A", "A"] ["Sunday"] = 0 ∧
      ∃ r, generate_fair_roster ⟨0⟩ ["A", "A"] 0 ["Sunday"] [] = .ok r ∧
        r.length = 7 ∧ r.map Prod.fst = days :=
  ⟨by decide, by decide, by decide,
    c2_duplicates_ok ⟨0⟩ ["A", "A"] 0 ["Sunday"] [] (by decide) (by decide) (by decide)⟩

/-! ### Claim C3 -/

/-- C3 is false as stated: in the full-skip branch the sentinel for an
unlabelled day is "NO ASSIGNMENT", not "DAY OFF". -/
theorem c3_counterexample :
    ∃ r, generate_fair_roster ⟨0⟩ ["A"] 0 days [] = .ok r ∧
      ("Monday", "NO ASSIGNMENT") ∈ r ∧ ("Monday", "DAY OFF") ∉ r :=
  ⟨fullSkipRoster [], rfl, by decide, by decide⟩

/-- C3 (amended): when all 7 days are skip days the function returns exactly
7 records, each day mapping to its configured label when present in
`skip_assignments` and otherwise to the sentinel "NO ASSIGNMENT"; no record
draws on the rotation (every person field comes from `skip_assignments` or
is the sentinel). -/
theorem c3_full_skip (s : RandState) (names : List String) (w : Nat)
    (sd : List String) (sa : List (String × String))
    (hall : ∀ d ∈ days, d ∈ sd) :
    generate_fair_roster s names w sd sa = .ok (fullSkipRoster sa) ∧
      (fullSkipRoster sa).length = 7 ∧
      (fullSkipRoster sa).map Prod.fst = days ∧
      (∀ d ∈ days, (d, (sa.lookup d).getD "NO ASSIGNMENT") ∈ fullSkipRoster sa) ∧
      (∀ dp ∈ fullSkipRoster sa,
        sa.lookup dp.1 = some dp.2 ∨
          (sa.lookup dp.1 = none ∧ dp.2 = "NO ASSIGNMENT")) := by
  refine ⟨generate_full_skip s names w sd sa (assignDays_eq_nil_of_all sd hall),
    by simp [fullSkipRoster, days], fullSkipRoster_map_fst sa,
    fun d hd => fullSkipRoster_mem sa d hd,
    fun dp hdp => fullSkipRoster_mem_cases sa dp hdp⟩

/-- Witness for C3's amended theorem with one labelled day. -/
theorem c3_witness :
    (∀ d ∈ days, d ∈ days) ∧
      generate_fair_roster ⟨0⟩ ["A"] 4 days [("Saturday", "GENERAL CLEANING")] =
        .ok (fullSkipRoster [("Saturday", "GENERAL CLEANING")]) :=
  ⟨by decide,
    (c3_full_skip ⟨0⟩ ["A"] 4 days [("Saturday", "GENERAL CLEANING")] (by decide)).1⟩

/-! ### Claim C4 -/

/-- C4 is false as stated: the quantifier covers participant lists with
repeated names, and `["B", "B"]` with no skip days raises `IndexError`
instead of returning 7 records. -/
theorem c4_counterexample :
    generate_fair_roster ⟨0⟩ ["B", "B"] 0 [] [] = .error .indexError := by
  have hlen : (finalAssignments ["B", "B"] 0 []).length = 6 := by
    rw [(finalAssignments_perm _ _ _).length_eq]
    rfl
  have hnone : emitDays [] [] (finalAssignments ["B", "B"] 0 []) days 0 = none := by
    apply emitDays_eq_none
    · omega
    · have hc : (consumingDays [] [] days).length = 7 := rfl
      omega
  unfold generate_fair_roster
  rw [if_neg (by decide), if_neg (by decide), hnone]

/-- C4 (amended): for every non-empty list of pairwise distinct participant
names, every week offset and every skip configuration, the function returns
exactly 7 records, one per canonical day label, in canonical order. -/
theorem c4_coverage (s : RandState) (names : List String) (w : Nat)
    (sd : List String) (sa : List (String × String))
    (h : names ≠ []) (hn : names.Nodup) :
    ∃ r, generate_fair_roster s names w sd sa = .ok r ∧
      r.map Prod.fst = days ∧ r.length = 7 := by
  by_cases ha : assignDays sd = []
  · exact ⟨fullSkipRoster sa, generate_full_skip s names w sd sa ha,
      fullSkipRoster_map_fst sa, by simp [fullSkipRoster, days]⟩
  · refine ⟨_, generate_ok s names w sd sa h hn ha,
      emitPure_map_fst sd sa _ days 0, ?_⟩
    rw [emitPure_length]
    rfl

/-- Witness for C4's amended theorem. -/
theorem c4_witness :
    (["A", "B", "C"] : List String) ≠ [] ∧ (["A", "B", "C"] : List String).Nodup ∧
      ∃ r, generate_fair_roster ⟨0⟩ ["A", "B", "C"] 2 ["Saturday"]
          [("Saturday", "GENERAL CLEANING")] = .ok r ∧
        r.map Prod.fst = days ∧ r.length = 7 :=
  ⟨by decide, by decide,
    c4_coverage ⟨0⟩ ["A", "B", "C"] 2 ["Saturday"] [("Saturday", "GENERAL CLEANING")]
      (by decide) (by decide)⟩

/-! ### Claim C5 -/

/-- C5 is false as stated: its quantifier covers participant lists with
repeated names, and with `["A", "A", "B"]`, Saturday and Sunday skipped
(5 assignable days, `base = 1`, `extra = 2`), both occurrences of "A" sit
below the `extra` boundary, so "A" occupies 4 of the 5 assignable days and
"B" only 1 — the per-participant counts differ by 3. -/
theorem c5_counterexample :
    ∃ r, generate_fair_roster ⟨0⟩ ["A", "A", "B"] 0 ["Saturday", "Sunday"] [] = .ok r ∧
      countAssigned ["Saturday", "Sunday"] r "A" = 4 ∧
      countAssigned ["Saturday", "Sunday"] r "B" = 1 ∧
      ¬(countAssigned ["Saturday", "Sunday"] r "A" ≤
          countAssigned ["Saturday", "Sunday"] r "B" + 1) := by
  have hfit : (assignmentsOf ["A", "A", "B"] 0 ["Saturday", "Sunday"]).length
      = (assignDays ["Saturday", "Sunday"]).length := rfl
  have hsa : ∀ d, ((List.lookup d ([] : List (String × String))).isSome) →
      d ∈ (["Saturday", "Sunday"] : List String) := by
    intro d hd
    simp at hd
  have hA : countAssigned ["Saturday", "Sunday"]
      (emitPure ["Saturday", "Sunday"] []
        (finalAssignments ["A", "A", "B"] 0 ["Saturday", "Sunday"]) days 0) "A" = 4 := by
    rw [countAssigned_emitPure ["A", "A", "B"] 0 ["Saturday", "Sunday"] []
      (by decide) hsa hfit "A"]
    rfl
  have hB : countAssigned ["Saturday", "Sunday"]
      (emitPure ["Saturday", "Sunday"] []
        (finalAssignments ["A", "A", "B"] 0 ["Saturday", "Sunday"]) days 0) "B" = 1 := by
    rw [countAssigned_emitPure ["A", "A", "B"] 0 ["Saturday", "Sunday"] []
      (by decide) hsa hfit "B"]
    rfl
  exact ⟨_, generate_ok_of_length ⟨0⟩ ["A", "A", "B"] 0 ["Saturday", "Sunday"] []
      (by decide) (by decide) hfit, hA, hB, by rw [hA, hB]; decide⟩

/-- C5 (amended): for a non-empty list of pairwise distinct names, with
every labelled day a skip day and at least one assignable day, the
participant at rotated position `i` is assigned exactly
`base + (1 if i < extra else 0)` non-skip days, so any two participants'
counts differ by at most 1. -/
theorem c5_fairness (s : RandState) (names : List String) (w : Nat)
    (sd : List String) (sa : List (String × String))
    (h : names ≠ []) (hn : names.Nodup)
    (hsa : ∀ d, (sa.lookup d).isSome → d ∈ sd)
    (ha : assignDays sd ≠ []) :
    ∃ r, generate_fair_roster s names w sd sa = .ok r ∧
      (∀ i, (hi : i < (orderOf names w).length) →
        countAssigned sd r (orderOf names w)[i] =
          baseOf names sd + if i < extraOf names sd then 1 else 0) ∧
      ∀ x ∈ names, ∀ y ∈ names,
        countAssigned sd r x ≤ countAssigned sd r y + 1 := by
  have hfit := assignmentsOf_length names w sd h hn
  refine ⟨_, generate_ok s names w sd sa h hn ha, ?_, ?_⟩
  · intro i hi
    rw [countAssigned_emitPure names w sd sa h hsa hfit]
    exact assignmentsOf_count names w sd h hn i hi
  · intro x hx y hy
    have hx' : x ∈ orderOf names w := ((orderOf_perm names w h).mem_iff).mpr hx
    have hy' : y ∈ orderOf names w := ((orderOf_perm names w h).mem_iff).mpr hy
    obtain ⟨i, hi, hix⟩ := List.getElem_of_mem hx'
    obtain ⟨j, hj, hjy⟩ := List.getElem_of_mem hy'
    rw [countAssigned_emitPure names w sd sa h hsa hfit,
      countAssigned_emitPure names w sd sa h hsa hfit, ← hix, ← hjy,
      assignmentsOf_count names w sd h hn i hi,
      assignmentsOf_count names w sd h hn j hj]
    split_ifs <;> omega

/-- Witness for C5's amended theorem. -/
theorem c5_witness :
    (["A", "B", "C"] : List String) ≠ [] ∧ (["A", "B", "C"] : List String).Nodup ∧
      assignDays ["Saturday"] ≠ [] ∧
      ∃ r, generate_fair_roster ⟨0⟩ ["A", "B", "C"] 1 ["Saturday"] [] = .ok r ∧
        (∀ i, (hi : i < (orderOf ["A", "B", "C"] 1).length) →
          countAssigned ["Saturday"] r (orderOf ["A", "B", "C"] 1)[i] =
            baseOf ["A", "B", "C"] ["Saturday"] +
              if i < extraOf ["A", "B", "C"] ["Saturday"] then 1 else 0) ∧
        ∀ x ∈ (["A", "B", "C"] : List String), ∀ y ∈ (["A", "B", "C"] : List String),
          countAssigned ["Saturday"] r x ≤ countAssigned ["Saturday"] r y + 1 :=
  ⟨by decide, by decide, by decide,
    c5_fairness ⟨0⟩ ["A", "B", "C"] 1 ["Saturday"] [] (by decide) (by decide)
      (by intro d hd; simp at hd) (by decide)⟩

/-! ### Claim C6 -/

/-- C6: the rotated order satisfies
`order[i] = participants[(week_offset + i) mod n]`, and when
`0 < extra < n` the extra receivers at `week_offset = k+1` are obtained
from those at `k` by moving every receiving position one step forward
(cyclically), position by position. -/
theorem c6_rotation (names sd : List String) (k : Nat) (h : names ≠ [])
    (h0 : 0 < extraOf names sd) (hlt : extraOf names sd < names.length) :
    (∀ i, i < names.length →
      (orderOf names k).getD i "" = names.getD ((k + i) % names.length) "") ∧
    extraReceivers names sd (k + 1) =
      (extraIndices names sd k).map (fun j => names.getD ((j + 1) % names.length) "") := by
  constructor
  · intro i hi
    unfold orderOf
    rw [List.getD_eq_getElem _ _ (by simpa using hi)]
    simp
  · unfold extraReceivers extraIndices
    rw [List.map_map, List.map_map]
    apply List.map_congr_left
    intro i _
    simp only [Function.comp_apply]
    congr 1
    rw [Nat.mod_add_mod]
    congr 1
    omega

/-- Witness for C6 at a concrete input with `0 < extra < n`. -/
theorem c6_witness :
    (["A", "B", "C"] : List String) ≠ [] ∧
      0 < extraOf ["A", "B", "C"] [] ∧ extraOf ["A", "B", "C"] [] < 3 ∧
      ((∀ i, i < (["A", "B", "C"] : List String).length →
        (orderOf ["A", "B", "C"] 2).getD i "" =
          (["A", "B", "C"] : List String).getD ((2 + i) % 3) "") ∧
      extraReceivers ["A", "B", "C"] [] 3 =
        (extraIndices ["A", "B", "C"] [] 2).map
          (fun j => (["A", "B", "C"] : List String).getD ((j + 1) % 3) "")) :=
  ⟨by decide, by decide, by decide,
    c6_rotation ["A", "B", "C"] [] 2 (by decide) (by decide) (by decide)⟩

/-! ### Claim C7 -/

/-- C7: the output is independent of the ambient generator state — the
function re-seeds from `week_offset` before drawing, so two invocations
with identical arguments agree whatever the global `random` state was. -/
theorem c7_determinism (s₁ s₂ : RandState) (names : List String) (w : Nat)
    (sd : List String) (sa : List (String × String)) :
    generate_fair_roster s₁ names w sd sa = generate_fair_roster s₂ names w sd sa := rfl

/-! ### Claim C8 -/

/-- C8 is false as stated: when `skip_days` is all 7 days (a configuration
its precondition allows), the unlabelled skip days carry the sentinel
"NO ASSIGNMENT", not "DAY OFF". -/
theorem c8_counterexample :
    ∃ r, generate_fair_roster ⟨0⟩ ["X", "Y"] 3 days [("Monday", "MEETING")] = .ok r ∧
      ("Tuesday", "NO ASSIGNMENT") ∈ r ∧ ("Tuesday", "DAY OFF") ∉ r :=
  ⟨fullSkipRoster [("Monday", "MEETING")], rfl, by decide, by decide⟩

/-- C8 (amended): with distinct non-empty names, every `skip_labels` key a
skip day, and at least one assignable day, every skip day appears mapped to
its configured label when present and otherwise to "DAY OFF", and a record
on a skip day never carries anything but the configured label or the
sentinel (no rotation entry).  (In the full-skip case the sentinel is
"NO ASSIGNMENT" instead.) -/
theorem c8_skip_fidelity (s : RandState) (names : List String) (w : Nat)
    (sd : List String) (sa : List (String × String))
    (h : names ≠ []) (hn : names.Nodup)
    (hsa : ∀ d, (sa.lookup d).isSome → d ∈ sd)
    (ha : assignDays sd ≠ []) :
    ∃ r, generate_fair_roster s names w sd sa = .ok r ∧
      (∀ d ∈ days, d ∈ sd →
        (∀ lbl, sa.lookup d = some lbl → (d, lbl) ∈ r) ∧
        (sa.lookup d = none → (d, "DAY OFF") ∈ r)) ∧
      ∀ dp ∈ r, dp.1 ∈ sd → sa.lookup dp.1 = some dp.2 ∨ dp.2 = "DAY OFF" := by
  refine ⟨_, generate_ok s names w sd sa h hn ha, ?_, ?_⟩
  · intro d hd hds
    exact ⟨fun lbl hl => emitPure_mem_label sd sa _ days 0 d lbl hd hl,
      fun hl => emitPure_mem_dayoff sd sa _ days 0 d hd hl hds⟩
  · intro dp hdp hds
    rcases emitPure_mem_cases sd sa _ days 0 dp hdp with h1 | h2 | h3
    · exact Or.inl h1
    · exact Or.inr h2.2.2
    · exact absurd hds h3.2

/-- Witness for C8's amended theorem. -/
theorem c8_witness :
    (["A", "B"] : List String) ≠ [] ∧ (["A", "B"] : List String).Nodup ∧
      assignDays ["Saturday", "Sunday"] ≠ [] ∧
      ∃ r, generate_fair_roster ⟨0⟩ ["A", "B"] 0 ["Saturday", "Sunday"]
          [("Saturday", "GENERAL CLEANING")] = .ok r ∧
        (∀ d ∈ days, d ∈ (["Saturday", "Sunday"] : List String) →
          (∀ lbl, List.lookup d [("Saturday", "GENERAL CLEANING")] = some lbl →
            (d, lbl) ∈ r) ∧
          (List.lookup d [("Saturday", "GENERAL CLEANING")] = none →
            (d, "DAY OFF") ∈ r)) ∧
        ∀ dp ∈ r, dp.1 ∈ (["Saturday", "Sunday"] : List String) →
          List.lookup dp.1 [("Saturday", "GENERAL CLEANING")] = some dp.2 ∨
            dp.2 = "DAY OFF" :=
  ⟨by decide, by decide, by decide,
    c8_skip_fidelity ⟨0⟩ ["A", "B"] 0 ["Saturday", "Sunday"]
      [("Saturday", "GENERAL CLEANING")] (by decide) (by decide)
      (by
        intro d hd
        rw [lookup_cons_if] at hd
        by_cases hds : d = "Saturday"
        · subst hds; simp
        · rw [if_neg hds] at hd; simp at hd)
      (by decide)⟩

/-! ### Claim C9 -/

/-- C9: the adjacency-avoidance loop performs at most 1000 re-shuffles and
then accepts the list as-is, and a single-participant call never errors —
every record on a day that is neither labelled nor skipped carries the sole
participant. -/
theorem c9_bounded_best_effort :
    (∀ (s : RandState) (l : List String), (retryLoop s l).2.2 ≤ 1000) ∧
    ∀ (a : String) (s : RandState) (w : Nat) (sd : List String)
      (sa : List (String × String)),
      ∃ r, generate_fair_roster s [a] w sd sa = .ok r ∧
        ∀ dp ∈ r, sa.lookup dp.1 = none → dp.1 ∉ sd → dp.2 = a := by
  refine ⟨retryLoop_attempts, ?_⟩
  intro a s w sd sa
  by_cases ha : assignDays sd = []
  · refine ⟨fullSkipRoster sa, generate_full_skip s [a] w sd sa ha, ?_⟩
    intro dp hdp hlook hnsd
    exfalso
    have hall := List.filter_eq_nil_iff.mp ha
    have hd1 : dp.1 ∈ days := by
      rcases List.mem_map.mp hdp with ⟨d, hd, hdp2⟩
      rw [← hdp2]
      exact hd
    have : dp.1 ∈ sd := by
      have := hall dp.1 hd1
      simpa using this
    exact hnsd this
  · have h1 : ([a] : List String) ≠ [] := by simp
    have hn : ([a] : List String).Nodup := by simp
    refine ⟨_, generate_ok s [a] w sd sa h1 hn ha, ?_⟩
    intro dp hdp hlook hnsd
    have hfit := assignmentsOf_length [a] w sd h1 hn
    have hcond : 0 + (consumingDays sd sa days).length
        ≤ (finalAssignments [a] w sd).length := by
      rw [Nat.zero_add, (finalAssignments_perm _ _ _).length_eq, hfit]
      exact consumingDays_sub sd sa
    have hmem : dp.2 ∈ finalAssignments [a] w sd :=
      emitPure_mem_consume sd sa _ days 0 dp hcond hdp hlook hnsd
    have hmem2 : dp.2 ∈ assignmentsOf [a] w sd :=
      ((finalAssignments_perm [a] w sd).mem_iff).mp hmem
    unfold assignmentsOf at hmem2
    rw [orderOf_singleton] at hmem2
    simp only [List.flatMap_cons, List.flatMap_nil, List.append_nil,
      List.mem_replicate] at hmem2
    exact hmem2.2

/-! ### Claim C10 -/

/-- C10 is false as stated: it quantifies over every input whose
`skip_assignments` has a key outside `skip_days`, but with the duplicate
list `["A", "A"]`, no skip days and `{"Monday": "X"}`, the `counts`
dictionary collapse leaves only 6 prepared entries while exactly 6 days
(Tuesday..Sunday) consume — the labelled day still emits its label, yet
every prepared entry is emitted, so no entries are "never emitted". -/
theorem c10_counterexample :
    (∃ r, generate_fair_roster ⟨0⟩ ["A", "A"] 0 [] [("Monday", "X")] = .ok r ∧
      ("Monday", "X") ∈ r) ∧
    ¬((consumingDays [] [("Monday", "X")] days).length <
        (assignmentsOf ["A", "A"] 0 []).length) := by
  constructor
  · have hcond : 0 + (consumingDays [] [("Monday", "X")] days).length
        ≤ (finalAssignments ["A", "A"] 0 []).length := by
      rw [(finalAssignments_perm _ _ _).length_eq]
      decide
    refine ⟨emitPure [] [("Monday", "X")] (finalAssignments ["A", "A"] 0 []) days 0, ?_,
      emitPure_mem_label [] [("Monday", "X")] (finalAssignments ["A", "A"] 0 []) days 0
        "Monday" "X" (by decide) rfl⟩
    unfold generate_fair_roster
    rw [if_neg (by decide), if_neg (by decide),
      emitDays_eq_emitPure [] [("Monday", "X")] _ days 0 hcond]
  · decide

/-- C10 (amended): a `skip_assignments` key that is not a skip day still
emits its configured label (the label branch precedes the rotation branch)
and the day's record never carries a rotation entry; with pairwise distinct
names the day was counted assignable when the per-participant counts were
computed, so strictly fewer entries of the prepared assignment list are
consumed than were prepared.  (With duplicate names the prepared list can
already be short and be consumed entirely.) -/
theorem c10_label_overrides_rotation (s : RandState) (names : List String) (w : Nat)
    (sd : List String) (sa : List (String × String)) (d0 lbl : String)
    (h : names ≠ []) (hn : names.Nodup)
    (hd0 : d0 ∈ days) (hnsd : d0 ∉ sd) (hlook : sa.lookup d0 = some lbl) :
    ∃ r, generate_fair_roster s names w sd sa = .ok r ∧ (d0, lbl) ∈ r ∧
      (∀ dp ∈ r, dp.1 = d0 → dp.2 = lbl) ∧
      (consumingDays sd sa days).length < (assignmentsOf names w sd).length := by
  have ha : assignDays sd ≠ [] := by
    have hmem : d0 ∈ assignDays sd := by
      unfold assignDays
      rw [List.mem_filter]
      exact ⟨hd0, by simpa using hnsd⟩
    exact List.ne_nil_of_mem hmem
  refine ⟨_, generate_ok s names w sd sa h hn ha,
    emitPure_mem_label sd sa _ days 0 d0 lbl hd0 hlook, ?_, ?_⟩
  · intro dp hdp hfst
    rcases emitPure_mem_cases sd sa _ days 0 dp hdp with h1 | h2 | h3
    · rw [hfst, hlook] at h1
      injection h1 with h1
      exact h1.symm
    · rw [hfst, hlook] at h2
      cases h2.1
    · rw [hfst, hlook] at h3
      cases h3.1
  · rw [assignmentsOf_length names w sd h hn]
    unfold consumingDays assignDays
    apply length_filter_lt_of_mem days _ _ ?_ d0 hd0 ?_ ?_
    · exact fun x hx => (Bool.and_eq_true _ _ |>.mp hx).2
    · simp [hlook]
    · simpa using hnsd

/-- Witness for C10 at a concrete input. -/
theorem c10_witness :
    (["A", "B"] : List String) ≠ [] ∧ (["A", "B"] : List String).Nodup ∧
      "Monday" ∈ days ∧ "Monday" ∉ (["Sunday"] : List String) ∧
      List.lookup "Monday" [("Monday", "MEETING")] = some "MEETING" ∧
      ∃ r, generate_fair_roster ⟨0⟩ ["A", "B"] 0 ["Sunday"]
          [("Monday", "MEETING")] = .ok r ∧ ("Monday", "MEETING") ∈ r ∧
        (∀ dp ∈ r, dp.1 = "Monday" → dp.2 = "MEETING") ∧
        (consumingDays ["Sunday"] [("Monday", "MEETING")] days).length <
          (assignmentsOf ["A", "B"] 0 ["Sunday"]).length :=
  ⟨by decide, by decide, by decide, by decide, by decide,
    c10_label_overrides_rotation ⟨0⟩ ["A", "B"] 0 ["Sunday"] [("Monday", "MEETING")]
      "Monday" "MEETING" (by decide) (by decide) (by decide) (by decide) (by decide)⟩

end RosterModel
